import Mathlib

/-!
Shallow embedding of the nurbspy NURBS-curve evaluation core.

The repository ships its test suite (src/tests/test_nurbs_curve.py); the
evaluation engine itself (basis functions, curve evaluation, derivatives,
construction validation) is modelled here from the specification, faithful
to its wording, and cross-checked against the concrete scenarios exercised
by the test suite.

Numbers: the Python code computes with IEEE floats; the model uses exact
field arithmetic (ℚ for executable claims, ℝ where irrational data such as
sqrt 2 appears), so "within tolerance" claims are settled by exact results.
-/

namespace Nurbs

variable {K : Type} [LinearOrderedField K]

/-- Knot lookup with default 0, mirroring indexed access into the knot array. -/
def knotD (U : List K) (i : ℕ) : K := U.getD i 0

/-- Value of the final knot (the upper bound of the parameter domain). -/
def lastKnot (U : List K) : K := knotD U (U.length - 1)

/-- Modelled from the spec: degree-0 Cox-de Boor basis functions are
indicator functions of half-open knot spans `[U_i, U_{i+1})`, with the
special rule that the last (nonempty) span is closed on both ends, so that
`u = U_max` evaluates to the last nonzero span.  Higher degrees use the
standard two-term recurrence; any fraction whose denominator is zero (a
repeated knot) contributes zero through an explicit branch.
(This is the missing `compute_basis_polynomials` of nurbspy.) -/
def basisFun (U : List K) : ℕ → ℕ → K → K
  | 0, i, u =>
      if (knotD U i ≤ u ∧ u < knotD U (i + 1)) ∨
         (u = lastKnot U ∧ knotD U (i + 1) = lastKnot U ∧ knotD U i < knotD U (i + 1))
      then 1 else 0
  | p + 1, i, u =>
      (if knotD U (i + p + 1) - knotD U i = 0 then 0
       else (u - knotD U i) / (knotD U (i + p + 1) - knotD U i) * basisFun U p i u) +
      (if knotD U (i + p + 2) - knotD U (i + 1) = 0 then 0
       else (knotD U (i + p + 2) - u) / (knotD U (i + p + 2) - knotD U (i + 1)) *
            basisFun U p (i + 1) u)

/-- Division that reports failure on a zero divisor; used to express that the
basis recurrence never actually divides by zero. -/
def checkedDiv (a b : K) : Option K := if b = 0 then none else some (a / b)

/-- Modelled from the spec: the basis recurrence instrumented so that every
division is checked; a zero-denominator fraction is skipped by the explicit
branch before any division is attempted. -/
def basisFunChecked (U : List K) : ℕ → ℕ → K → Option K
  | 0, i, u => some (basisFun U 0 i u)
  | p + 1, i, u => do
      let n₁ ← basisFunChecked U p i u
      let n₂ ← basisFunChecked U p (i + 1) u
      let t₁ ← if knotD U (i + p + 1) - knotD U i = 0 then some 0
               else do
                 let q ← checkedDiv (u - knotD U i) (knotD U (i + p + 1) - knotD U i)
                 some (q * n₁)
      let t₂ ← if knotD U (i + p + 2) - knotD U (i + 1) = 0 then some 0
               else do
                 let q ← checkedDiv (knotD U (i + p + 2) - u)
                          (knotD U (i + p + 2) - knotD U (i + 1))
                 some (q * n₂)
      some (t₁ + t₂)

/-- Modelled from the spec: k-th derivatives of the degree-p basis functions
via the standard recursive derivative formula (derivatives of degree-p bases
as weighted combinations of degree-(p-1) basis derivatives of order k-1);
order 0 is the basis itself, and derivatives of the piecewise-constant
degree-0 bases vanish, so an order larger than the degree yields zero. -/
def basisDeriv (U : List K) : ℕ → ℕ → ℕ → K → K
  | p, 0, i, u => basisFun U p i u
  | 0, _ + 1, _, _ => 0
  | p + 1, k + 1, i, u =>
      (p + 1 : K) *
        ((if knotD U (i + p + 1) - knotD U i = 0 then 0
          else basisDeriv U p k i u / (knotD U (i + p + 1) - knotD U i)) -
         (if knotD U (i + p + 2) - knotD U (i + 1) = 0 then 0
          else basisDeriv U p k (i + 1) u / (knotD U (i + p + 2) - knotD U (i + 1))))

/-- Modelled from the spec: the rational denominator `Σ N_i(u) w_i` of a
NURBS curve with `n` control points. -/
def weightSum (U : List K) (p : ℕ) (W : ℕ → K) (n : ℕ) (u : K) : K :=
  ∑ i ∈ Finset.range n, basisFun U p i u * W i

/-- Modelled from the spec: one coordinate of the weighted numerator
`Σ N_i(u) w_i P_i` (`Pc i` is that coordinate of control point `i`). -/
def numerCoord (U : List K) (p : ℕ) (W : ℕ → K) (Pc : ℕ → K) (n : ℕ) (u : K) : K :=
  ∑ i ∈ Finset.range n, basisFun U p i u * W i * Pc i

/-- Modelled from the spec: one coordinate of rational curve evaluation,
numerator over denominator (nurbspy `get_value`). -/
def valueCoord (U : List K) (p : ℕ) (W : ℕ → K) (Pc : ℕ → K) (n : ℕ) (u : K) : K :=
  numerCoord U p W Pc n u / weightSum U p W n u

/-- Modelled from the spec: order-k derivative of the weighted denominator. -/
def weightSumD (U : List K) (p : ℕ) (W : ℕ → K) (n k : ℕ) (u : K) : K :=
  ∑ i ∈ Finset.range n, basisDeriv U p k i u * W i

/-- Modelled from the spec: order-k derivative of one numerator coordinate. -/
def numerCoordD (U : List K) (p : ℕ) (W : ℕ → K) (Pc : ℕ → K) (n k : ℕ) (u : K) : K :=
  ∑ i ∈ Finset.range n, basisDeriv U p k i u * W i * Pc i

/-- Modelled from the spec: order-k derivative of one coordinate of the
rational curve via the quotient rule generalized to arbitrary order
(Leibniz expansion over previously computed lower-order derivatives);
nurbspy `get_derivative`. -/
def curveDerivCoord (U : List K) (p : ℕ) (W : ℕ → K) (Pc : ℕ → K) (n : ℕ) :
    ℕ → K → K
  | k, u =>
      (numerCoordD U p W Pc n k u -
        ∑ j ∈ (Finset.Icc 1 k).attach,
          (k.choose j.1 : K) * weightSumD U p W n j.1 u *
            curveDerivCoord U p W Pc n (k - j.1) u) /
      weightSum U p W n u
  termination_by k _ => k
  decreasing_by
    have hj := Finset.mem_Icc.mp j.2
    omega

/-! Complex-parameter evaluation path.  The spec requires all arithmetic
(span search, recurrence) to operate over the complex field so that the
complex-step differentiation probe works.  Complex scalars are modelled as
pairs of exact rationals (re, im); the span-search comparisons order complex
parameters by their real part (the imaginary perturbation of the complex
step is infinitesimal and never moves the parameter across a knot). -/

/-- Complex scalar: real and imaginary part, exact rationals. -/
abbrev QC : Type := ℚ × ℚ

/-- Complex embedding of a rational. -/
def qcOfQ (r : ℚ) : QC := (r, 0)

/-- Complex multiplication. -/
def qcMul (a b : QC) : QC := (a.1 * b.1 - a.2 * b.2, a.1 * b.2 + a.2 * b.1)

/-- Complex inverse (the zero scalar maps to zero, as with field division). -/
def qcInv (b : QC) : QC := (b.1 / (b.1 ^ 2 + b.2 ^ 2), -b.2 / (b.1 ^ 2 + b.2 ^ 2))

/-- Complex division. -/
def qcDiv (a b : QC) : QC := qcMul a (qcInv b)

/-- Modelled from the spec: the Cox-de Boor recursion over the complex
field; the degree-0 span indicators compare the real part of the parameter
against the knots, and the blending arithmetic is fully complex. -/
def basisFunC (U : List ℚ) : ℕ → ℕ → QC → QC
  | 0, i, u =>
      if (knotD U i ≤ u.1 ∧ u.1 < knotD U (i + 1)) ∨
         (u.1 = lastKnot U ∧ knotD U (i + 1) = lastKnot U ∧ knotD U i < knotD U (i + 1))
      then (1, 0) else (0, 0)
  | p + 1, i, u =>
      (if knotD U (i + p + 1) - knotD U i = 0 then (0, 0)
       else qcMul (qcDiv (u - qcOfQ (knotD U i)) (qcOfQ (knotD U (i + p + 1) - knotD U i)))
            (basisFunC U p i u)) +
      (if knotD U (i + p + 2) - knotD U (i + 1) = 0 then (0, 0)
       else qcMul (qcDiv (qcOfQ (knotD U (i + p + 2)) - u)
                         (qcOfQ (knotD U (i + p + 2) - knotD U (i + 1))))
            (basisFunC U p (i + 1) u))

/-- Modelled from the spec: complex weighted denominator. -/
def weightSumC (U : List ℚ) (p : ℕ) (W : ℕ → ℚ) (n : ℕ) (u : QC) : QC :=
  ∑ i ∈ Finset.range n, qcMul (basisFunC U p i u) (qcOfQ (W i))

/-- Modelled from the spec: complex weighted numerator coordinate. -/
def numerCoordC (U : List ℚ) (p : ℕ) (W : ℕ → ℚ) (Pc : ℕ → ℚ) (n : ℕ) (u : QC) : QC :=
  ∑ i ∈ Finset.range n, qcMul (basisFunC U p i u) (qcOfQ (W i * Pc i))

/-- Modelled from the spec: complex rational curve evaluation (one
coordinate). -/
def valueCoordC (U : List ℚ) (p : ℕ) (W : ℕ → ℚ) (Pc : ℕ → ℚ) (n : ℕ) (u : QC) : QC :=
  qcDiv (numerCoordC U p W Pc n u) (weightSumC U p W n u)

/-! Constructed curve entity and validation. -/

/-- Modelled from the spec: the immutable curve entity aggregating the
caller-supplied arrays.  `P` is dimension-major (a list of `d` coordinate
rows of `n_ctrl` entries each), mirroring the library's `(d, n)` arrays. -/
structure CurveData where
  P : List (List ℚ)
  W : List ℚ
  deg : ℕ
  U : List ℚ

/-- Number of control points of a dimension-major control array. -/
def nCtrl (P : List (List ℚ)) : ℕ := (P.headD []).length

/-- Modelled from the spec: curve construction with validation; each
violation fails construction with a descriptive error, and a successful
construction stores the inputs unchanged (no silent clamping). -/
def buildCurve (P : List (List ℚ)) (W : List ℚ) (p : ℕ) (U : List ℚ) :
    Except String CurveData :=
  if U.length ≠ nCtrl P + p + 1 then
    Except.error "knot vector length must equal n_ctrl + degree + 1"
  else if W.any (fun w => decide (w ≤ 0)) then
    Except.error "control point weights must be positive"
  else if nCtrl P < p + 1 then
    Except.error "degree must be between 0 and n_ctrl - 1"
  else if List.Chain' (· ≤ ·) U then Except.ok ⟨P, W, p, U⟩
  else Except.error "knot vector must be non-decreasing"

/-! Output-shape model.  The library evaluates on numpy arrays; an array
result is modelled as its shape together with its row-major data.  The
tests fix the observable convention: `get_value` returns a `(d, Nu)` array,
also for scalar input (`test_nurbs_curve_example_1` compares the result of
a scalar evaluation against a `(3, 1)`-shaped reference, and the scalar
tests call `.flatten()`). -/

/-- Shape-carrying array of rationals (row-major data). -/
structure NArr where
  shape : List ℕ
  data : List ℚ

/-- Spatial dimension of a curve (number of coordinate rows). -/
def curveDim (c : CurveData) : ℕ := c.P.length

/-- Weight of control point i. -/
def wAt (c : CurveData) (i : ℕ) : ℚ := c.W.getD i 0

/-- Coordinate j of control point i. -/
def pCoord (c : CurveData) (j i : ℕ) : ℚ := (c.P.getD j []).getD i 0

/-- Modelled from the tests' observable convention: array-parameter curve
evaluation, one row per spatial coordinate, one column per parameter. -/
def getValueArr (c : CurveData) (us : List ℚ) : NArr :=
  ⟨[curveDim c, us.length],
   List.flatten ((List.range (curveDim c)).map (fun j =>
     us.map (fun u => valueCoord c.U c.deg (wAt c) (pCoord c j) (nCtrl c.P) u)))⟩

/-- Scalar-parameter evaluation: the scalar is promoted to a one-element
parameter array, so the result keeps a parameter axis of size one. -/
def getValueScalar (c : CurveData) (u : ℚ) : NArr := getValueArr c [u]

/-! Concrete data used by the claims and witnesses. -/

/-- Knot vector of the Ex2.2-style B-spline test. -/
def ex1U : List ℚ := [0, 0, 0, 1, 2, 3, 4, 4, 5, 5, 5]

/-- The x coordinates of the 8 control points (P2=(1,3,5), P3=(2,1,4), P4=(3,0,6)). -/
def ex1Px : ℕ → ℚ := fun i => [0, 0, 1, 2, 3, 0, 0, 0].getD i 0

/-- The y coordinates of the 8 control points. -/
def ex1Py : ℕ → ℚ := fun i => [0, 0, 3, 1, 0, 0, 0, 0].getD i 0

/-- The z coordinates of the 8 control points. -/
def ex1Pz : ℕ → ℚ := fun i => [0, 0, 5, 4, 6, 0, 0, 0].getD i 0

/-- All-ones weights (the default weight set: a polynomial B-spline). -/
def onesW : ℕ → ℚ := fun _ => 1

/-- The two-point Bezier curve of `test_nurbs_curve_scalar_input`
(control points (0,0) and (1,1), default weights, degree and knots). -/
def twoPtBezier : CurveData := ⟨[[0, 1], [0, 1]], [1, 1], 1, [0, 0, 1, 1]⟩

/-- Knot vector of the 4-control-point endpoint-interpolation test curve
(degree 2, clamped, one interior knot). -/
def witU : List ℚ := [0, 0, 0, 1/2, 1, 1, 1]

/-- Weights of the endpoint-interpolation test curve. -/
def witW : ℕ → ℚ := fun i => [2, 3, 1, 2].getD i 0

/-- The x coordinates of the endpoint-interpolation test curve. -/
def witPx : ℕ → ℚ := fun i => [1, 2, 3, 4].getD i 0

/-- Knot vector of the 9-point full-circle NURBS (quarters, doubled). -/
def c9U : List K := [0, 0, 0, 1/4, 1/4, 1/2, 1/2, 3/4, 3/4, 1, 1, 1]

/-- Weights of the 9-point circle, alternating 1 and s/2 where s stands for
sqrt 2 (the weight sqrt(2)/2 of the test). -/
def c9W (s : K) : ℕ → K := fun i => [1, s/2, 1, s/2, 1, s/2, 1, s/2, 1].getD i 0

/-- The x coordinates of the 9 circle control points. -/
def c9Px : ℕ → K := fun i => [1, 1, 0, -1, -1, -1, 0, 1, 1].getD i 0

/-- The y coordinates of the 9 circle control points. -/
def c9Py : ℕ → K := fun i => [0, 1, 1, 1, 0, -1, -1, -1, 0].getD i 0

/-- Knot vector of the 7-point circle built from three 120-degree arcs. -/
def c7U : List K := [0, 0, 0, 1/3, 1/3, 2/3, 2/3, 1, 1, 1]

/-- Weights of the 7-point circle, alternating 1 and 1/2. -/
def c7W : ℕ → K := fun i => [1, 1/2, 1, 1/2, 1, 1/2, 1].getD i 0

/-- The x coordinates of the 7 circle control points; t stands for sqrt 3,
so t/2 is the test value a = cos(pi/6). -/
def c7Px (t : K) : ℕ → K := fun i => [t/2, 0, -(t/2), -t, 0, t, t/2].getD i 0

/-- The y coordinates of the 7 circle control points. -/
def c7Py : ℕ → K := fun i => [1/2, 2, 1/2, -1, -1, -1, 1/2].getD i 0

/-! Theorems. -/

/-- Monotonicity of knot lookups within range, from chained sortedness. -/
theorem knotD_mono (U : List K) (hchain : List.Chain' (· ≤ ·) U) {i j : ℕ}
    (hij : i ≤ j) (hj : j < U.length) : knotD U i ≤ knotD U j := by
  induction j with
  | zero =>
      have h0 : i = 0 := Nat.le_zero.mp hij
      simp [h0]
  | succ j ih =>
      rcases Nat.lt_or_ge i (j + 1) with h | h
      · have hi : i ≤ j := Nat.lt_succ_iff.mp h
        have hjlt : j < U.length := Nat.lt_of_succ_lt hj
        refine le_trans (ih hi hjlt) ?_
        have hadj := (List.chain'_iff_get.mp hchain) j (by omega)
        rw [knotD, knotD, List.getD_eq_getElem U 0 hjlt, List.getD_eq_getElem U 0 hj]
        simpa using hadj
      · have heq : i = j + 1 := le_antisymm hij h
        simp [heq]

/-- At the lower knot bound of a start-clamped knot vector, the degree-q
basis functions reduce to the indicator of index p - q. -/
theorem basis_at_knot_min (U : List K) (p n : ℕ)
    (hlen : U.length = n + p + 1) (hn : 1 ≤ n)
    (hchain : List.Chain' (· ≤ ·) U)
    (hclampL : ∀ i, i ≤ p → knotD U i = knotD U 0)
    (hminlt : knotD U p < knotD U (p + 1)) :
    ∀ q, q ≤ p → ∀ i, i + q + 1 < U.length →
      basisFun U q i (knotD U 0) = if i = p - q then 1 else 0 := by
  have hp1 : p + 1 < U.length := by omega
  have h0p1 : knotD U 0 < knotD U (p + 1) := by
    have h := hclampL p le_rfl
    rw [← h]
    exact hminlt
  have hne_last : knotD U 0 ≠ lastKnot U := by
    have hle : knotD U (p + 1) ≤ lastKnot U := by
      rw [lastKnot]
      exact knotD_mono U hchain (by omega) (by omega)
    exact ne_of_lt (lt_of_lt_of_le h0p1 hle)
  intro q
  induction q with
  | zero =>
      intro _ i hi
      rw [Nat.sub_zero, basisFun]
      rcases lt_trichotomy i p with hlt | heq | hgt
      · have h1 : knotD U (i + 1) = knotD U 0 := hclampL (i + 1) (by omega)
        rw [if_neg, if_neg (by omega)]
        rintro (⟨-, hc⟩ | ⟨hc, -⟩)
        · rw [h1] at hc
          exact lt_irrefl _ hc
        · exact hne_last hc
      · subst heq
        rw [if_pos, if_pos rfl]
        exact Or.inl ⟨(hclampL i le_rfl).le, h0p1⟩
      · have hip : knotD U (p + 1) ≤ knotD U i := knotD_mono U hchain (by omega) (by omega)
        have h0i : knotD U 0 < knotD U i := lt_of_lt_of_le h0p1 hip
        rw [if_neg, if_neg (by omega)]
        rintro (⟨hc, -⟩ | ⟨hc, -⟩)
        · exact absurd hc (not_le.mpr h0i)
        · exact hne_last hc
  | succ q ih =>
      intro hq i hi
      have hq' : q ≤ p := by omega
      have hihyp := ih hq'
      have he1 : 1 ≤ p - q := by omega
      have hrhs : p - (q + 1) = p - q - 1 := by omega
      rw [hrhs, basisFun]
      rcases eq_or_ne i (p - q - 1) with heq | hne
      · have hb1 : basisFun U q i (knotD U 0) = 0 := by
          rw [hihyp i (by omega), if_neg (by omega)]
        have hb2 : basisFun U q (i + 1) (knotD U 0) = 1 := by
          rw [hihyp (i + 1) (by omega), if_pos (by omega)]
        have hd2idx : i + q + 2 = p + 1 := by omega
        have hki1 : knotD U (i + 1) = knotD U 0 := by
          have h2 : i + 1 ≤ p := by omega
          exact hclampL (i + 1) h2
        rw [hb1, hb2, hd2idx, hki1]
        have hd2 : knotD U (p + 1) - knotD U 0 ≠ 0 := sub_ne_zero.mpr (ne_of_gt h0p1)
        rw [if_neg hd2, div_self hd2, one_mul, if_pos heq]
        simp only [mul_zero, ite_self, zero_add]
      · rw [if_neg hne]
        have hb2 : basisFun U q (i + 1) (knotD U 0) = 0 := by
          rw [hihyp (i + 1) (by omega), if_neg (by omega)]
        rcases eq_or_ne i (p - q) with hie | hie
        · have hki : knotD U i = knotD U 0 := by
            rw [hie]
            exact hclampL (p - q) (by omega)
          rw [hki, sub_self, hb2]
          simp only [zero_div, zero_mul, mul_zero, ite_self, add_zero]
        · have hb1 : basisFun U q i (knotD U 0) = 0 := by
            rw [hihyp i (by omega), if_neg hie]
          rw [hb1, hb2]
          simp only [mul_zero, ite_self, add_zero]

/-- At the upper knot bound of an end-clamped knot vector, the degree-q
basis functions reduce to the indicator of index n - 1. -/
theorem basis_at_knot_max (U : List K) (p n : ℕ)
    (hlen : U.length = n + p + 1) (hn : 1 ≤ n)
    (hchain : List.Chain' (· ≤ ·) U)
    (hclampR : ∀ i, n ≤ i → i < U.length → knotD U i = lastKnot U)
    (hmaxlt : knotD U (n - 1) < knotD U n) :
    ∀ q, q ≤ p → ∀ i, i + q + 1 < U.length →
      basisFun U q i (lastKnot U) = if i = n - 1 then 1 else 0 := by
  have hnL : n < U.length := by omega
  have hkn : knotD U n = lastKnot U := hclampR n le_rfl hnL
  have hlast_lt : knotD U (n - 1) < lastKnot U := by
    rw [← hkn]
    exact hmaxlt
  have hub : ∀ j, j < U.length → knotD U j ≤ lastKnot U := by
    intro j hj
    rw [lastKnot]
    exact knotD_mono U hchain (by omega) (by omega)
  intro q
  induction q with
  | zero =>
      intro _ i hi
      rw [basisFun]
      rcases eq_or_ne i (n - 1) with heq | hne
      · rw [if_pos, if_pos heq]
        refine Or.inr ⟨rfl, ?_, ?_⟩
        · rw [show i + 1 = n by omega]
          exact hkn
        · rw [show i + 1 = n by omega, heq]
          exact hmaxlt
      · rw [if_neg, if_neg hne]
        rintro (⟨-, hc⟩ | ⟨-, hc2, hc3⟩)
        · exact absurd hc (not_lt.mpr (hub (i + 1) (by omega)))
        · rcases Nat.lt_trichotomy (i + 1) n with hlt | heqn | hgt
          · have hle : knotD U (i + 1) ≤ knotD U (n - 1) :=
              knotD_mono U hchain (by omega) (by omega)
            rw [hc2] at hle
            exact absurd hlast_lt (not_lt.mpr hle)
          · exact hne (by omega)
          · have hki : knotD U i = lastKnot U := hclampR i (by omega) (by omega)
            rw [hki] at hc3
            exact absurd hc3 (not_lt.mpr (hub (i + 1) (by omega)))
  | succ q ih =>
      intro hq i hi
      have hq' : q ≤ p := by omega
      have hihyp := ih hq'
      rw [basisFun]
      rcases eq_or_ne i (n - 1) with heq | hne
      · have hb1 : basisFun U q i (lastKnot U) = 1 := by
          rw [hihyp i (by omega), if_pos heq]
        have hb2 : basisFun U q (i + 1) (lastKnot U) = 0 := by
          rw [hihyp (i + 1) (by omega), if_neg (by omega)]
        have hkq : knotD U (i + q + 1) = lastKnot U :=
          hclampR (i + q + 1) (by omega) (by omega)
        have hki : knotD U i = knotD U (n - 1) := by rw [heq]
        have hd1 : knotD U (i + q + 1) - knotD U i ≠ 0 := by
          rw [hkq, hki]
          exact sub_ne_zero.mpr (ne_of_gt hlast_lt)
        rw [hb1, hb2, if_neg hd1, hkq, hki, div_self (by rw [hkq, hki] at hd1; exact hd1),
          one_mul, if_pos heq]
        simp only [mul_zero, ite_self, add_zero]
      · rw [if_neg hne]
        have hb1 : basisFun U q i (lastKnot U) = 0 := by
          rw [hihyp i (by omega), if_neg hne]
        rcases eq_or_ne (i + 1) (n - 1) with hie | hie
        · have hkq2 : knotD U (i + q + 2) = lastKnot U :=
            hclampR (i + q + 2) (by omega) (by omega)
          rw [hb1, hkq2, sub_self]
          simp only [mul_zero, ite_self, zero_add, zero_div, zero_mul]
        · have hb2 : basisFun U q (i + 1) (lastKnot U) = 0 := by
            rw [hihyp (i + 1) (by omega), if_neg hie]
          rw [hb1, hb2]
          simp only [mul_zero, ite_self, add_zero]

/-- Endpoint interpolation for clamped curves (helper, any ordered field):
at the two knot bounds the rational curve reproduces the first and last
control point exactly. -/
theorem valueCoord_endpoints (U : List K) (p n : ℕ) (W Pc : ℕ → K)
    (hlen : U.length = n + p + 1) (hn : 1 ≤ n)
    (hchain : List.Chain' (· ≤ ·) U)
    (hclampL : ∀ i, i ≤ p → knotD U i = knotD U 0)
    (hclampR : ∀ i, n ≤ i → i < U.length → knotD U i = lastKnot U)
    (hminlt : knotD U p < knotD U (p + 1))
    (hmaxlt : knotD U (n - 1) < knotD U n)
    (hW : ∀ i, i < n → 0 < W i) :
    valueCoord U p W Pc n (knotD U 0) = Pc 0 ∧
    valueCoord U p W Pc n (lastKnot U) = Pc (n - 1) := by
  have hbmin : ∀ i, i < n → basisFun U p i (knotD U 0) = if i = 0 then 1 else 0 := by
    intro i hi
    have h := basis_at_knot_min U p n hlen hn hchain hclampL hminlt p le_rfl i (by omega)
    simpa using h
  have hbmax : ∀ i, i < n → basisFun U p i (lastKnot U) = if i = n - 1 then 1 else 0 :=
    fun i hi => basis_at_knot_max U p n hlen hn hchain hclampR hmaxlt p le_rfl i (by omega)
  constructor
  · have hws : weightSum U p W n (knotD U 0) = W 0 := by
      rw [weightSum,
        Finset.sum_congr rfl (fun i hi => by
          rw [hbmin i (Finset.mem_range.mp hi), ite_mul, one_mul, zero_mul]),
        Finset.sum_ite_eq' (Finset.range n) 0 W,
        if_pos (Finset.mem_range.mpr (by omega))]
    have hnum : numerCoord U p W Pc n (knotD U 0) = W 0 * Pc 0 := by
      rw [numerCoord,
        Finset.sum_congr rfl (fun i hi => by
          rw [hbmin i (Finset.mem_range.mp hi), ite_mul, ite_mul, one_mul, zero_mul,
            zero_mul]),
        Finset.sum_ite_eq' (Finset.range n) 0 (fun i => W i * Pc i),
        if_pos (Finset.mem_range.mpr (by omega))]
    rw [valueCoord, hnum, hws]
    exact mul_div_cancel_left₀ _ (ne_of_gt (hW 0 (by omega)))
  · have hws : weightSum U p W n (lastKnot U) = W (n - 1) := by
      rw [weightSum,
        Finset.sum_congr rfl (fun i hi => by
          rw [hbmax i (Finset.mem_range.mp hi), ite_mul, one_mul, zero_mul]),
        Finset.sum_ite_eq' (Finset.range n) (n - 1) W,
        if_pos (Finset.mem_range.mpr (by omega))]
    have hnum : numerCoord U p W Pc n (lastKnot U) = W (n - 1) * Pc (n - 1) := by
      rw [numerCoord,
        Finset.sum_congr rfl (fun i hi => by
          rw [hbmax i (Finset.mem_range.mp hi), ite_mul, ite_mul, one_mul, zero_mul,
            zero_mul]),
        Finset.sum_ite_eq' (Finset.range n) (n - 1) (fun i => W i * Pc i),
        if_pos (Finset.mem_range.mpr (by omega))]
    rw [valueCoord, hnum, hws]
    exact mul_div_cancel_left₀ _ (ne_of_gt (hW (n - 1) (by omega)))

/-- C1: for every clamped NURBS curve - non-decreasing knots of length
n_ctrl + degree + 1, the first and the last knot each repeated exactly
degree+1 times (the clamp equalities plus the two strict inequalities,
which hold by the spec's knot-vector invariant that interior multiplicities
are at most the degree), positive weights - evaluating at the lower knot
bound returns the first control point and evaluating at the upper knot
bound returns the last control point, exactly (hence within 1e-6), in
every coordinate. -/
theorem endpoint_interpolation_clamped (U : List ℚ) (p n : ℕ) (W Pc : ℕ → ℚ)
    (hlen : U.length = n + p + 1) (hn : 1 ≤ n)
    (hchain : List.Chain' (· ≤ ·) U)
    (hclampL : ∀ i, i ≤ p → knotD U i = knotD U 0)
    (hclampR : ∀ i, n ≤ i → i < U.length → knotD U i = lastKnot U)
    (hminlt : knotD U p < knotD U (p + 1))
    (hmaxlt : knotD U (n - 1) < knotD U n)
    (hW : ∀ i, i < n → 0 < W i) :
    valueCoord U p W Pc n (knotD U 0) = Pc 0 ∧
    valueCoord U p W Pc n (lastKnot U) = Pc (n - 1) :=
  valueCoord_endpoints U p n W Pc hlen hn hchain hclampL hclampR hminlt hmaxlt hW

/-- Witness for C1: the 4-point degree-2 weighted test curve of
`test_nurbs_curve_endpoint_property` (x coordinates); the curve starts at
x = 1 and ends at x = 4. -/
theorem endpoint_interpolation_clamped_witness :
    witU.length = 4 + 2 + 1 ∧ (1:ℕ) ≤ 4 ∧ List.Chain' (· ≤ ·) witU ∧
    (∀ i, i ≤ 2 → knotD witU i = knotD witU 0) ∧
    (∀ i, 4 ≤ i → i < witU.length → knotD witU i = lastKnot witU) ∧
    knotD witU 2 < knotD witU 3 ∧ knotD witU 3 < knotD witU 4 ∧
    (∀ i, i < 4 → 0 < witW i) ∧
    valueCoord witU 2 witW witPx 4 (knotD witU 0) = witPx 0 ∧
    valueCoord witU 2 witW witPx 4 (lastKnot witU) = witPx 3 := by
  have hlen : witU.length = 4 + 2 + 1 := by norm_num [witU]
  have hn : (1:ℕ) ≤ 4 := by norm_num
  have hchain : List.Chain' (· ≤ ·) witU := by
    norm_num [witU, List.chain'_cons, List.chain'_singleton]
  have hclampL : ∀ i, i ≤ 2 → knotD witU i = knotD witU 0 := by
    intro i hi
    interval_cases i <;> norm_num [witU, knotD, List.getD]
  have hclampR : ∀ i, 4 ≤ i → i < witU.length → knotD witU i = lastKnot witU := by
    intro i h1 h2
    rw [hlen] at h2
    interval_cases i <;> norm_num [witU, knotD, lastKnot, List.getD]
  have hminlt : knotD witU 2 < knotD witU 3 := by norm_num [witU, knotD, List.getD]
  have hmaxlt : knotD witU 3 < knotD witU 4 := by norm_num [witU, knotD, List.getD]
  have hW : ∀ i, i < 4 → 0 < witW i := by
    intro i hi
    interval_cases i <;> norm_num [witW, List.getD]
  have h := endpoint_interpolation_clamped witU 2 4 witW witPx hlen hn hchain hclampL
    hclampR hminlt hmaxlt hW
  exact ⟨hlen, hn, hchain, hclampL, hclampR, hminlt, hmaxlt, hW, h.1, h.2⟩

set_option maxHeartbeats 2000000 in
/-- C3: for the degree-2 B-spline with control points P2=(1,3,5), P3=(2,1,4),
P4=(3,0,6) at indices 2-4 of an 8-point control array (others zero) and knot
vector [0,0,0,1,2,3,4,4,5,5,5], the value at u = 5/2 equals
(1/8)P2 + (6/8)P3 + (1/8)P4 in every coordinate (exactly, hence within 1e-8). -/
theorem bspline_book_example_value :
    valueCoord ex1U 2 onesW ex1Px 8 (5/2) = 1/8 * ex1Px 2 + 6/8 * ex1Px 3 + 1/8 * ex1Px 4 ∧
    valueCoord ex1U 2 onesW ex1Py 8 (5/2) = 1/8 * ex1Py 2 + 6/8 * ex1Py 3 + 1/8 * ex1Py 4 ∧
    valueCoord ex1U 2 onesW ex1Pz 8 (5/2) = 1/8 * ex1Pz 2 + 6/8 * ex1Pz 3 + 1/8 * ex1Pz 4 := by
  refine ⟨?_, ?_, ?_⟩ <;>
    norm_num [valueCoord, numerCoord, weightSum, Finset.sum_range_succ, basisFun,
      ex1U, ex1Px, ex1Py, ex1Pz, onesW, knotD, lastKnot, List.getD]

/-- Derivative of order zero reduces to plain evaluation (helper). -/
theorem curveDerivCoord_zero (U : List K) (p : ℕ) (W : ℕ → K) (Pc : ℕ → K)
    (n : ℕ) (u : K) : curveDerivCoord U p W Pc n 0 u = valueCoord U p W Pc n u := by
  rw [curveDerivCoord, Finset.Icc_eq_empty (by omega)]
  simp [valueCoord, numerCoordD, numerCoord, basisDeriv]

/-- C2: for every NURBS curve (any knot vector, degree, weights, control
coordinates and control-point count) and every parameter u, the order-0
derivative equals the value, exactly (hence within 1e-8); stated for each
coordinate of the curve. -/
theorem derivative_order_zero_eq_value (U : List ℚ) (p : ℕ) (W : ℕ → ℚ)
    (Pc : ℕ → ℚ) (n : ℕ) (u : ℚ) :
    curveDerivCoord U p W Pc n 0 u = valueCoord U p W Pc n u :=
  curveDerivCoord_zero U p W Pc n u

/-- C8: requesting a basis-derivative order k larger than the degree p yields
the zero function, at every index and parameter (the evaluation is total, so
in particular it does not fail). -/
theorem basis_deriv_order_exceeds_degree (U : List ℚ) (p k i : ℕ) (u : ℚ)
    (h : p < k) : basisDeriv U p k i u = 0 := by
  induction p generalizing k i with
  | zero =>
      cases k with
      | zero => omega
      | succ k => simp [basisDeriv]
  | succ p ih =>
      cases k with
      | zero => omega
      | succ k =>
          have h1 := ih k i (by omega)
          have h2 := ih k (i + 1) (by omega)
          simp [basisDeriv, h1, h2]

/-- Witness for C8 at concrete inputs: degree 2, order 3. -/
theorem basis_deriv_order_exceeds_degree_witness :
    2 < 3 ∧ basisDeriv ex1U 2 3 1 (3/2 : ℚ) = 0 :=
  ⟨by norm_num, basis_deriv_order_exceeds_degree ex1U 2 3 1 (3/2) (by norm_num)⟩

/-- Checked basis evaluation never fails and agrees with the basis (helper). -/
theorem basisFunChecked_eq (U : List K) (p i : ℕ) (u : K) :
    basisFunChecked U p i u = some (basisFun U p i u) := by
  induction p generalizing i with
  | zero => simp [basisFunChecked]
  | succ p ih =>
      rw [basisFunChecked, ih, ih]
      simp only [Option.bind_eq_bind, Option.some_bind, checkedDiv]
      split_ifs <;> simp_all [basisFun]

/-- C7: in the Cox-de Boor recurrence, a blending fraction whose denominator
vanishes (a repeated knot) contributes exactly zero through the explicit
branch: if the first (resp. second) span length is zero the result is just
the other term; and the division-checked evaluation never fails (returns
`some`, never `none`) and agrees with the basis, for every knot vector,
degree, index and parameter. -/
theorem basis_zero_denominator_branch (U : List ℚ) (p i : ℕ) (u : ℚ) :
    basisFunChecked U p i u = some (basisFun U p i u) ∧
    (knotD U (i + p + 1) = knotD U i →
      basisFun U (p + 1) i u =
        (if knotD U (i + p + 2) - knotD U (i + 1) = 0 then 0
         else (knotD U (i + p + 2) - u) / (knotD U (i + p + 2) - knotD U (i + 1)) *
              basisFun U p (i + 1) u)) ∧
    (knotD U (i + p + 2) = knotD U (i + 1) →
      basisFun U (p + 1) i u =
        (if knotD U (i + p + 1) - knotD U i = 0 then 0
         else (u - knotD U i) / (knotD U (i + p + 1) - knotD U i) * basisFun U p i u)) := by
  refine ⟨basisFunChecked_eq U p i u, fun h => ?_, fun h => ?_⟩
  · rw [basisFun, if_pos (show knotD U (i + p + 1) - knotD U i = 0 by rw [h, sub_self]),
      zero_add]
  · rw [basisFun,
      if_pos (show knotD U (i + p + 2) - knotD U (i + 1) = 0 by rw [h, sub_self]), add_zero]

/-- Witness for C7: a double knot at the start of [0,0,1] makes the first
blending denominator vanish; the recurrence returns only the second term. -/
theorem basis_zero_denominator_branch_witness :
    knotD ([0, 0, 1] : List ℚ) 1 = knotD [0, 0, 1] 0 ∧
    basisFun ([0, 0, 1] : List ℚ) 1 0 (1/2) =
      (if knotD ([0, 0, 1] : List ℚ) 2 - knotD [0, 0, 1] 1 = 0 then 0
       else (knotD ([0, 0, 1] : List ℚ) 2 - 1/2) /
              (knotD [0, 0, 1] 2 - knotD [0, 0, 1] 1) *
            basisFun [0, 0, 1] 0 1 (1/2)) :=
  ⟨by norm_num [knotD, List.getD],
   (basis_zero_denominator_branch [0, 0, 1] 0 0 (1/2)).2.1
     (by norm_num [knotD, List.getD])⟩

/-- C9: construction fails with a descriptive error exactly when the knot
vector length differs from n_ctrl + degree + 1, or some weight is
non-positive, or the degree exceeds n_ctrl - 1 (in ℕ the degree cannot be
negative), or the knot vector is not non-decreasing; and a successful
construction returns the inputs unchanged (never silently clamps), so no
failure is deferred to evaluation. -/
theorem construction_validation_iff (P : List (List ℚ)) (W : List ℚ) (p : ℕ)
    (U : List ℚ) :
    ((∃ e, buildCurve P W p U = Except.error e) ↔
      (U.length ≠ nCtrl P + p + 1 ∨ (∃ w ∈ W, w ≤ 0) ∨ nCtrl P < p + 1 ∨
        ¬ List.Chain' (· ≤ ·) U)) ∧
    (∀ c, buildCurve P W p U = Except.ok c →
      c.P = P ∧ c.W = W ∧ c.deg = p ∧ c.U = U) := by
  unfold buildCurve
  split_ifs with h1 h2 h3 h4
  · exact ⟨⟨fun _ => Or.inl h1, fun _ => ⟨_, rfl⟩⟩, fun c hc => by cases hc⟩
  · refine ⟨⟨fun _ => Or.inr (Or.inl ?_), fun _ => ⟨_, rfl⟩⟩, fun c hc => by cases hc⟩
    simpa using h2
  · exact ⟨⟨fun _ => Or.inr (Or.inr (Or.inl h3)), fun _ => ⟨_, rfl⟩⟩, fun c hc => by cases hc⟩
  · refine ⟨⟨fun he => ?_, fun hd => ?_⟩, fun c hc => ?_⟩
    · obtain ⟨e, he⟩ := he
      cases he
    · exfalso
      rcases hd with h | h | h | h
      · exact h1 h
      · exact h2 (by simpa using h)
      · exact h3 h
      · exact h h4
    · cases hc
      exact ⟨rfl, rfl, rfl, rfl⟩
  · exact ⟨⟨fun _ => Or.inr (Or.inr (Or.inr h4)), fun _ => ⟨_, rfl⟩⟩, fun c hc => by cases hc⟩

/-- Witness for C9: a knot vector of the wrong length (3 instead of 4)
makes construction fail. -/
theorem construction_validation_iff_witness :
    ∃ e, buildCurve [[0, 1]] [1, 1] 1 [0, 0, 1] = Except.error e :=
  (construction_validation_iff [[0, 1]] [1, 1] 1 [0, 0, 1]).1.mpr
    (Or.inl (by norm_num [nCtrl]))

/-- C10 counterexample: evaluating the two-point Bezier test curve at the
scalar parameter 1/2 yields an array of shape (2, 1) - the parameter axis
is retained with length one - not the axis-free shape (2,) the claim
asserts for scalar input. -/
theorem value_scalar_shape_counterexample :
    (getValueScalar twoPtBezier (1/2)).shape = [2, 1] ∧
    (getValueScalar twoPtBezier (1/2)).shape ≠ [2] :=
  ⟨rfl, by decide⟩

/-- C10 (amended): evaluation accepts scalar or array, real or complex
parameters; an N-element parameter array yields a (d, N) array with the
leading axis running over spatial coordinates, and a scalar parameter
yields a (d, 1) array (a retained parameter axis of length one, which the
tests flatten), whose data at u = 1/2 is (1/2, 1/2); a complex parameter is
accepted through the complex evaluation path (at u = 1/2 + (1/2)i the
Bezier test curve evaluates to (1/2 + (1/2)i, 1/2 + (1/2)i)). -/
theorem value_output_shape :
    (∀ us : List ℚ, (getValueArr twoPtBezier us).shape = [2, us.length] ∧
      (getValueArr twoPtBezier us).data.length = 2 * us.length) ∧
    getValueScalar twoPtBezier (1/2) = ⟨[2, 1], [1/2, 1/2]⟩ ∧
    valueCoordC [0, 0, 1, 1] 1 onesW (fun i => [0, 1].getD i 0) 2 (1/2, 1/2) =
      (1/2, 1/2) := by
  refine ⟨fun us => ⟨rfl, ?_⟩, ?_, ?_⟩
  · simp [getValueArr, List.length_flatten, Function.comp, curveDim, twoPtBezier,
      List.range_succ]
    ring
  · norm_num [getValueScalar, getValueArr, curveDim, twoPtBezier, valueCoord,
      numerCoord, weightSum, Finset.sum_range_succ, basisFun, knotD, lastKnot,
      List.getD, nCtrl, wAt, pCoord, List.range_succ]
  · norm_num [valueCoordC, numerCoordC, weightSumC, Finset.sum_range_succ, basisFunC,
      knotD, lastKnot, List.getD, onesW, qcMul, qcDiv, qcInv, qcOfQ, Prod.ext_iff]

set_option maxHeartbeats 2000000 in
/-- Unit norm of the 9-point circle on the first quarter span (helper). -/
theorem c9_span0 (s u : ℝ) (hs0 : 0 ≤ s) (hs : s ^ 2 = 2)
    (h1 : 0 ≤ u) (h2 : u < 1/4) :
    valueCoord c9U 2 (c9W s) c9Px 9 u ^ 2 + valueCoord c9U 2 (c9W s) c9Py 9 u ^ 2 = 1 := by
  have f0 : ¬ u < (0:ℝ) := not_lt.mpr h1
  have f1 : ¬ (1/4 : ℝ) ≤ u := not_le.mpr h2
  have f2 : u < (1/2 : ℝ) := by linarith
  have f3 : ¬ (1/2 : ℝ) ≤ u := not_le.mpr f2
  have f4 : u < (3/4 : ℝ) := by linarith
  have f5 : ¬ (3/4 : ℝ) ≤ u := not_le.mpr f4
  have f6 : u < (1 : ℝ) := by linarith
  have f7 : ¬ (1 : ℝ) ≤ u := not_le.mpr f6
  have f8 : ¬ u = (1 : ℝ) := by intro h; rw [h] at f6; exact lt_irrefl _ f6
  have hx : numerCoord c9U 2 (c9W s) c9Px 9 u =
      (1 - 4*u)^2 + s * (4*u*(1 - 4*u)) := by
    simp only [numerCoord, Finset.sum_range_succ, basisFun, c9U, c9W, c9Px, knotD,
      lastKnot, List.getD]
    norm_num [h1, h2, f0, f1, f2, f3, f4, f5, f6, f7, f8]
    ring
  have hy : numerCoord c9U 2 (c9W s) c9Py 9 u =
      s * (4*u*(1 - 4*u)) + (4*u)^2 := by
    simp only [numerCoord, Finset.sum_range_succ, basisFun, c9U, c9W, c9Py, knotD,
      lastKnot, List.getD]
    norm_num [h1, h2, f0, f1, f2, f3, f4, f5, f6, f7, f8]
    ring
  have hw : weightSum c9U 2 (c9W s) 9 u =
      (1 - 4*u)^2 + s * (4*u*(1 - 4*u)) + (4*u)^2 := by
    simp only [weightSum, Finset.sum_range_succ, basisFun, c9U, c9W, knotD,
      lastKnot, List.getD]
    norm_num [h1, h2, f0, f1, f2, f3, f4, f5, f6, f7, f8]
    ring
  have hA : 0 < (1 - 4*u)^2 := pow_pos (by linarith) 2
  have hB : 0 ≤ s * (4*u*(1 - 4*u)) :=
    mul_nonneg hs0 (mul_nonneg (by linarith) (by linarith))
  have hC : 0 ≤ (4*u)^2 := sq_nonneg _
  have hwpos : (0:ℝ) < (1 - 4*u)^2 + s * (4*u*(1 - 4*u)) + (4*u)^2 := by linarith
  rw [valueCoord, valueCoord, hx, hy, hw]
  rw [div_pow, div_pow, div_add_div_same, div_eq_one_iff_eq (by positivity)]
  linear_combination ((4*u*(1 - 4*u))^2) * hs

set_option maxHeartbeats 2000000 in
/-- Unit norm of the 9-point circle on the second quarter span (helper). -/
theorem c9_span1 (s u : ℝ) (hs0 : 0 ≤ s) (hs : s ^ 2 = 2)
    (h1 : (1/4 : ℝ) ≤ u) (h2 : u < 1/2) :
    valueCoord c9U 2 (c9W s) c9Px 9 u ^ 2 + valueCoord c9U 2 (c9W s) c9Py 9 u ^ 2 = 1 := by
  have g0 : (0:ℝ) ≤ u := by linarith
  have f0 : ¬ u < (0:ℝ) := not_lt.mpr g0
  have f1 : ¬ u < (1/4 : ℝ) := not_lt.mpr h1
  have f3 : ¬ (1/2 : ℝ) ≤ u := not_le.mpr h2
  have f4 : u < (3/4 : ℝ) := by linarith
  have f5 : ¬ (3/4 : ℝ) ≤ u := not_le.mpr f4
  have f6 : u < (1 : ℝ) := by linarith
  have f7 : ¬ (1 : ℝ) ≤ u := not_le.mpr f6
  have f8 : ¬ u = (1 : ℝ) := by intro h; rw [h] at f6; exact lt_irrefl _ f6
  have hx : numerCoord c9U 2 (c9W s) c9Px 9 u =
      -(s * ((4*u - 1)*(2 - 4*u)) + (4*u - 1)^2) := by
    simp only [numerCoord, Finset.sum_range_succ, basisFun, c9U, c9W, c9Px, knotD,
      lastKnot, List.getD]
    norm_num [h1, h2, g0, f0, f1, f3, f4, f5, f6, f7, f8]
    ring
  have hy : numerCoord c9U 2 (c9W s) c9Py 9 u =
      (2 - 4*u)^2 + s * ((4*u - 1)*(2 - 4*u)) := by
    simp only [numerCoord, Finset.sum_range_succ, basisFun, c9U, c9W, c9Py, knotD,
      lastKnot, List.getD]
    norm_num [h1, h2, g0, f0, f1, f3, f4, f5, f6, f7, f8]
    ring
  have hw : weightSum c9U 2 (c9W s) 9 u =
      (2 - 4*u)^2 + s * ((4*u - 1)*(2 - 4*u)) + (4*u - 1)^2 := by
    simp only [weightSum, Finset.sum_range_succ, basisFun, c9U, c9W, knotD,
      lastKnot, List.getD]
    norm_num [h1, h2, g0, f0, f1, f3, f4, f5, f6, f7, f8]
    ring
  have hA : 0 < (2 - 4*u)^2 := pow_pos (by linarith) 2
  have hB : 0 ≤ s * ((4*u - 1)*(2 - 4*u)) :=
    mul_nonneg hs0 (mul_nonneg (by linarith) (by linarith))
  have hC : 0 ≤ (4*u - 1)^2 := sq_nonneg _
  rw [valueCoord, valueCoord, hx, hy, hw]
  rw [div_pow, div_pow, div_add_div_same, div_eq_one_iff_eq (by positivity)]
  linear_combination (((4*u - 1)*(2 - 4*u))^2) * hs

set_option maxHeartbeats 2000000 in
/-- Unit norm of the 9-point circle on the third quarter span (helper). -/
theorem c9_span2 (s u : ℝ) (hs0 : 0 ≤ s) (hs : s ^ 2 = 2)
    (h1 : (1/2 : ℝ) ≤ u) (h2 : u < 3/4) :
    valueCoord c9U 2 (c9W s) c9Px 9 u ^ 2 + valueCoord c9U 2 (c9W s) c9Py 9 u ^ 2 = 1 := by
  have g0 : (0:ℝ) ≤ u := by linarith
  have f0 : ¬ u < (0:ℝ) := not_lt.mpr g0
  have g1 : (1/4 : ℝ) ≤ u := by linarith
  have f1 : ¬ u < (1/4 : ℝ) := not_lt.mpr g1
  have f2 : ¬ u < (1/2 : ℝ) := not_lt.mpr h1
  have f5 : ¬ (3/4 : ℝ) ≤ u := not_le.mpr h2
  have f6 : u < (1 : ℝ) := by linarith
  have f7 : ¬ (1 : ℝ) ≤ u := not_le.mpr f6
  have f8 : ¬ u = (1 : ℝ) := by intro h; rw [h] at f6; exact lt_irrefl _ f6
  have hx : numerCoord c9U 2 (c9W s) c9Px 9 u =
      -((3 - 4*u)^2 + s * ((4*u - 2)*(3 - 4*u))) := by
    simp only [numerCoord, Finset.sum_range_succ, basisFun, c9U, c9W, c9Px, knotD,
      lastKnot, List.getD]
    norm_num [h1, h2, g0, g1, f0, f1, f2, f5, f6, f7, f8]
    ring
  have hy : numerCoord c9U 2 (c9W s) c9Py 9 u =
      -(s * ((4*u - 2)*(3 - 4*u)) + (4*u - 2)^2) := by
    simp only [numerCoord, Finset.sum_range_succ, basisFun, c9U, c9W, c9Py, knotD,
      lastKnot, List.getD]
    norm_num [h1, h2, g0, g1, f0, f1, f2, f5, f6, f7, f8]
    ring
  have hw : weightSum c9U 2 (c9W s) 9 u =
      (3 - 4*u)^2 + s * ((4*u - 2)*(3 - 4*u)) + (4*u - 2)^2 := by
    simp only [weightSum, Finset.sum_range_succ, basisFun, c9U, c9W, knotD,
      lastKnot, List.getD]
    norm_num [h1, h2, g0, g1, f0, f1, f2, f5, f6, f7, f8]
    ring
  have hA : 0 < (3 - 4*u)^2 := pow_pos (by linarith) 2
  have hB : 0 ≤ s * ((4*u - 2)*(3 - 4*u)) :=
    mul_nonneg hs0 (mul_nonneg (by linarith) (by linarith))
  have hC : 0 ≤ (4*u - 2)^2 := sq_nonneg _
  rw [valueCoord, valueCoord, hx, hy, hw]
  rw [div_pow, div_pow, div_add_div_same, div_eq_one_iff_eq (by positivity)]
  linear_combination (((4*u - 2)*(3 - 4*u))^2) * hs

set_option maxHeartbeats 2000000 in
/-- Unit norm of the 9-point circle on the fourth quarter span (helper). -/
theorem c9_span3 (s u : ℝ) (hs0 : 0 ≤ s) (hs : s ^ 2 = 2)
    (h1 : (3/4 : ℝ) ≤ u) (h2 : u < 1) :
    valueCoord c9U 2 (c9W s) c9Px 9 u ^ 2 + valueCoord c9U 2 (c9W s) c9Py 9 u ^ 2 = 1 := by
  have g0 : (0:ℝ) ≤ u := by linarith
  have f0 : ¬ u < (0:ℝ) := not_lt.mpr g0
  have g1 : (1/4 : ℝ) ≤ u := by linarith
  have f1 : ¬ u < (1/4 : ℝ) := not_lt.mpr g1
  have g2 : (1/2 : ℝ) ≤ u := by linarith
  have f2 : ¬ u < (1/2 : ℝ) := not_lt.mpr g2
  have f3 : ¬ u < (3/4 : ℝ) := not_lt.mpr h1
  have f7 : ¬ (1 : ℝ) ≤ u := not_le.mpr h2
  have f8 : ¬ u = (1 : ℝ) := by intro h; rw [h] at h2; exact lt_irrefl _ h2
  have hx : numerCoord c9U 2 (c9W s) c9Px 9 u =
      s * ((4*u - 3)*(4 - 4*u)) + (4*u - 3)^2 := by
    simp only [numerCoord, Finset.sum_range_succ, basisFun, c9U, c9W, c9Px, knotD,
      lastKnot, List.getD]
    norm_num [h1, h2, g0, g1, g2, f0, f1, f2, f3, f7, f8]
    ring
  have hy : numerCoord c9U 2 (c9W s) c9Py 9 u =
      -((4 - 4*u)^2 + s * ((4*u - 3)*(4 - 4*u))) := by
    simp only [numerCoord, Finset.sum_range_succ, basisFun, c9U, c9W, c9Py, knotD,
      lastKnot, List.getD]
    norm_num [h1, h2, g0, g1, g2, f0, f1, f2, f3, f7, f8]
    ring
  have hw : weightSum c9U 2 (c9W s) 9 u =
      (4 - 4*u)^2 + s * ((4*u - 3)*(4 - 4*u)) + (4*u - 3)^2 := by
    simp only [weightSum, Finset.sum_range_succ, basisFun, c9U, c9W, knotD,
      lastKnot, List.getD]
    norm_num [h1, h2, g0, g1, g2, f0, f1, f2, f3, f7, f8]
    ring
  have hA : 0 < (4 - 4*u)^2 := pow_pos (by linarith) 2
  have hB : 0 ≤ s * ((4*u - 3)*(4 - 4*u)) :=
    mul_nonneg hs0 (mul_nonneg (by linarith) (by linarith))
  have hC : 0 ≤ (4*u - 3)^2 := sq_nonneg _
  rw [valueCoord, valueCoord, hx, hy, hw]
  rw [div_pow, div_pow, div_add_div_same, div_eq_one_iff_eq (by positivity)]
  linear_combination (((4*u - 3)*(4 - 4*u))^2) * hs





set_option maxHeartbeats 2000000 in
/-- Unit norm of the 3-arc circle on its first span (helper). -/
theorem c7_span0 (t u : ℝ) (ht : t ^ 2 = 3)
    (h1 : (0:ℝ) ≤ u) (h2 : u < 1/3) :
    valueCoord c7U 2 c7W (c7Px t) 7 u ^ 2 + valueCoord c7U 2 c7W c7Py 7 u ^ 2 = 1 := by
  have f0 : ¬ u < (0:ℝ) := not_lt.mpr h1
  have f1 : ¬ (1/3 : ℝ) ≤ u := not_le.mpr h2
  have f2 : u < (2/3 : ℝ) := by linarith
  have f3 : ¬ (2/3 : ℝ) ≤ u := not_le.mpr f2
  have f6 : u < (1 : ℝ) := by linarith
  have f7 : ¬ (1 : ℝ) ≤ u := not_le.mpr f6
  have f8 : ¬ u = (1 : ℝ) := by intro h; rw [h] at f6; exact lt_irrefl _ f6
  have hx : numerCoord c7U 2 c7W (c7Px t) 7 u =
      t/2 * ((1 - 3*u)^2 - (3*u)^2) := by
    simp only [numerCoord, Finset.sum_range_succ, basisFun, c7U, c7W, c7Px, knotD,
      lastKnot, List.getD]
    norm_num [h1, h2, f0, f1, f2, f3, f6, f7, f8]
    ring
  have hy : numerCoord c7U 2 c7W c7Py 7 u =
      (1 - 3*u)^2/2 + 2*(3*u*(1 - 3*u)) + (3*u)^2/2 := by
    simp only [numerCoord, Finset.sum_range_succ, basisFun, c7U, c7W, c7Py, knotD,
      lastKnot, List.getD]
    norm_num [h1, h2, f0, f1, f2, f3, f6, f7, f8]
    ring
  have hw : weightSum c7U 2 c7W 7 u =
      (1 - 3*u)^2 + 3*u*(1 - 3*u) + (3*u)^2 := by
    simp only [weightSum, Finset.sum_range_succ, basisFun, c7U, c7W, knotD,
      lastKnot, List.getD]
    norm_num [h1, h2, f0, f1, f2, f3, f6, f7, f8]
    ring
  have hwpos : (0:ℝ) < (1 - 3*u)^2 + 3*u*(1 - 3*u) + (3*u)^2 := by
    nlinarith [sq_nonneg (6*u - 1)]
  rw [valueCoord, valueCoord, hx, hy, hw]
  rw [div_pow, div_pow, div_add_div_same, div_eq_one_iff_eq (pow_ne_zero 2 (ne_of_gt hwpos))]
  linear_combination (((1 - 3*u)^2 - (3*u)^2)^2/4) * ht

set_option maxHeartbeats 2000000 in
/-- Unit norm of the 3-arc circle on its second span (helper). -/
theorem c7_span1 (t u : ℝ) (ht : t ^ 2 = 3)
    (h1 : (1/3 : ℝ) ≤ u) (h2 : u < 2/3) :
    valueCoord c7U 2 c7W (c7Px t) 7 u ^ 2 + valueCoord c7U 2 c7W c7Py 7 u ^ 2 = 1 := by
  have g0 : (0:ℝ) ≤ u := by linarith
  have f0 : ¬ u < (0:ℝ) := not_lt.mpr g0
  have f1 : ¬ u < (1/3 : ℝ) := not_lt.mpr h1
  have f3 : ¬ (2/3 : ℝ) ≤ u := not_le.mpr h2
  have f6 : u < (1 : ℝ) := by linarith
  have f7 : ¬ (1 : ℝ) ≤ u := not_le.mpr f6
  have f8 : ¬ u = (1 : ℝ) := by intro h; rw [h] at f6; exact lt_irrefl _ f6
  have hx : numerCoord c7U 2 c7W (c7Px t) 7 u =
      -(t/2 * ((2 - 3*u)^2 + 2*((3*u - 1)*(2 - 3*u)))) := by
    simp only [numerCoord, Finset.sum_range_succ, basisFun, c7U, c7W, c7Px, knotD,
      lastKnot, List.getD]
    norm_num [h1, h2, g0, f0, f1, f3, f6, f7, f8]
    ring
  have hy : numerCoord c7U 2 c7W c7Py 7 u =
      (2 - 3*u)^2/2 - (3*u - 1)*(2 - 3*u) - (3*u - 1)^2 := by
    simp only [numerCoord, Finset.sum_range_succ, basisFun, c7U, c7W, c7Py, knotD,
      lastKnot, List.getD]
    norm_num [h1, h2, g0, f0, f1, f3, f6, f7, f8]
    ring
  have hw : weightSum c7U 2 c7W 7 u =
      (2 - 3*u)^2 + (3*u - 1)*(2 - 3*u) + (3*u - 1)^2 := by
    simp only [weightSum, Finset.sum_range_succ, basisFun, c7U, c7W, knotD,
      lastKnot, List.getD]
    norm_num [h1, h2, g0, f0, f1, f3, f6, f7, f8]
    ring
  have hwpos : (0:ℝ) < (2 - 3*u)^2 + (3*u - 1)*(2 - 3*u) + (3*u - 1)^2 := by
    nlinarith [sq_nonneg (6*u - 3)]
  rw [valueCoord, valueCoord, hx, hy, hw]
  rw [div_pow, div_pow, div_add_div_same, div_eq_one_iff_eq (pow_ne_zero 2 (ne_of_gt hwpos))]
  linear_combination (((2 - 3*u)^2 + 2*((3*u - 1)*(2 - 3*u)))^2/4) * ht

set_option maxHeartbeats 2000000 in
/-- Unit norm of the 3-arc circle on its third span (helper). -/
theorem c7_span2 (t u : ℝ) (ht : t ^ 2 = 3)
    (h1 : (2/3 : ℝ) ≤ u) (h2 : u < 1) :
    valueCoord c7U 2 c7W (c7Px t) 7 u ^ 2 + valueCoord c7U 2 c7W c7Py 7 u ^ 2 = 1 := by
  have g0 : (0:ℝ) ≤ u := by linarith
  have f0 : ¬ u < (0:ℝ) := not_lt.mpr g0
  have g1 : (1/3 : ℝ) ≤ u := by linarith
  have f1 : ¬ u < (1/3 : ℝ) := not_lt.mpr g1
  have f2 : ¬ u < (2/3 : ℝ) := not_lt.mpr h1
  have f7 : ¬ (1 : ℝ) ≤ u := not_le.mpr h2
  have f8 : ¬ u = (1 : ℝ) := by intro h; rw [h] at h2; exact lt_irrefl _ h2
  have hx : numerCoord c7U 2 c7W (c7Px t) 7 u =
      t/2 * (2*((3*u - 2)*(3 - 3*u)) + (3*u - 2)^2) := by
    simp only [numerCoord, Finset.sum_range_succ, basisFun, c7U, c7W, c7Px, knotD,
      lastKnot, List.getD]
    norm_num [h1, h2, g0, g1, f0, f1, f2, f7, f8]
    ring
  have hy : numerCoord c7U 2 c7W c7Py 7 u =
      -((3 - 3*u)^2 + (3*u - 2)*(3 - 3*u) - (3*u - 2)^2/2) := by
    simp only [numerCoord, Finset.sum_range_succ, basisFun, c7U, c7W, c7Py, knotD,
      lastKnot, List.getD]
    norm_num [h1, h2, g0, g1, f0, f1, f2, f7, f8]
    ring
  have hw : weightSum c7U 2 c7W 7 u =
      (3 - 3*u)^2 + (3*u - 2)*(3 - 3*u) + (3*u - 2)^2 := by
    simp only [weightSum, Finset.sum_range_succ, basisFun, c7U, c7W, knotD,
      lastKnot, List.getD]
    norm_num [h1, h2, g0, g1, f0, f1, f2, f7, f8]
    ring
  have hwpos : (0:ℝ) < (3 - 3*u)^2 + (3*u - 2)*(3 - 3*u) + (3*u - 2)^2 := by
    nlinarith [sq_nonneg (6*u - 5)]
  rw [valueCoord, valueCoord, hx, hy, hw]
  rw [div_pow, div_pow, div_add_div_same, div_eq_one_iff_eq (pow_ne_zero 2 (ne_of_gt hwpos))]
  linear_combination ((2*((3*u - 2)*(3 - 3*u)) + (3*u - 2)^2)^2/4) * ht

/-- C5: the degree-2 rational curve with the 9 circle control points,
weights alternating 1 and s/2 (s = sqrt 2 so s/2 = sqrt(2)/2), and knot
vector [0,0,0,1/4,1/4,1/2,1/2,3/4,3/4,1,1,1] satisfies x(u)^2 + y(u)^2 = 1
exactly for every u in [0,1] (hence in particular at the 101 uniformly
spaced test parameters, within 1e-8); the analogous 7-point, 3-segment
120-degree-arc construction (a = t/2 with t = sqrt 3, so a = cos(pi/6))
satisfies the same unit-norm property. -/
theorem nurbs_circle_unit_norm (s t : ℝ) (hs0 : 0 ≤ s) (hs : s ^ 2 = 2)
    (ht : t ^ 2 = 3) :
    (∀ u : ℝ, 0 ≤ u → u ≤ 1 →
      valueCoord c9U 2 (c9W s) c9Px 9 u ^ 2 + valueCoord c9U 2 (c9W s) c9Py 9 u ^ 2 = 1) ∧
    (∀ u : ℝ, 0 ≤ u → u ≤ 1 →
      valueCoord c7U 2 c7W (c7Px t) 7 u ^ 2 + valueCoord c7U 2 c7W c7Py 7 u ^ 2 = 1) := by
  have hspos : 0 < s := by
    rcases hs0.lt_or_eq with h | h
    · exact h
    · exfalso
      rw [← h] at hs
      norm_num at hs
  constructor
  · intro u h0 h1
    rcases lt_or_ge u (1/4) with hA | hA
    · exact c9_span0 s u hs0 hs h0 hA
    rcases lt_or_ge u (1/2) with hB | hB
    · exact c9_span1 s u hs0 hs hA hB
    rcases lt_or_ge u (3/4) with hC | hC
    · exact c9_span2 s u hs0 hs hB hC
    rcases lt_or_eq_of_le h1 with hD | hD
    · exact c9_span3 s u hs0 hs hC hD
    · subst hD
      have hlen : (c9U : List ℝ).length = 9 + 2 + 1 := by norm_num [c9U]
      have hchain : List.Chain' (· ≤ ·) (c9U : List ℝ) := by
        norm_num [c9U, List.chain'_cons, List.chain'_singleton]
      have hclampL : ∀ i, i ≤ 2 → knotD (c9U : List ℝ) i = knotD c9U 0 := by
        intro i hi
        interval_cases i <;> norm_num [c9U, knotD, List.getD]
      have hclampR : ∀ i, 9 ≤ i → i < (c9U : List ℝ).length →
          knotD (c9U : List ℝ) i = lastKnot c9U := by
        intro i hi1 hi2
        rw [hlen] at hi2
        interval_cases i <;> norm_num [c9U, knotD, lastKnot, List.getD]
      have hminlt : knotD (c9U : List ℝ) 2 < knotD c9U 3 := by
        norm_num [c9U, knotD, List.getD]
      have hmaxlt : knotD (c9U : List ℝ) 8 < knotD c9U 9 := by
        norm_num [c9U, knotD, List.getD]
      have hWpos : ∀ i, i < 9 → 0 < c9W s i := by
        intro i hi
        interval_cases i <;> norm_num [c9W, List.getD] <;> linarith
      have hx := (valueCoord_endpoints c9U 2 9 (c9W s) c9Px hlen (by norm_num) hchain
        hclampL hclampR hminlt hmaxlt hWpos).2
      have hy := (valueCoord_endpoints c9U 2 9 (c9W s) c9Py hlen (by norm_num) hchain
        hclampL hclampR hminlt hmaxlt hWpos).2
      have hlast : lastKnot (c9U : List ℝ) = 1 := by
        norm_num [c9U, lastKnot, knotD, List.getD]
      rw [hlast] at hx hy
      rw [hx, hy]
      norm_num [c9Px, c9Py, List.getD]
  · intro u h0 h1
    rcases lt_or_ge u (1/3) with hA | hA
    · exact c7_span0 t u ht h0 hA
    rcases lt_or_ge u (2/3) with hB | hB
    · exact c7_span1 t u ht hA hB
    rcases lt_or_eq_of_le h1 with hC | hC
    · exact c7_span2 t u ht hB hC
    · subst hC
      have hlen : (c7U : List ℝ).length = 7 + 2 + 1 := by norm_num [c7U]
      have hchain : List.Chain' (· ≤ ·) (c7U : List ℝ) := by
        norm_num [c7U, List.chain'_cons, List.chain'_singleton]
      have hclampL : ∀ i, i ≤ 2 → knotD (c7U : List ℝ) i = knotD c7U 0 := by
        intro i hi
        interval_cases i <;> norm_num [c7U, knotD, List.getD]
      have hclampR : ∀ i, 7 ≤ i → i < (c7U : List ℝ).length →
          knotD (c7U : List ℝ) i = lastKnot c7U := by
        intro i hi1 hi2
        rw [hlen] at hi2
        interval_cases i <;> norm_num [c7U, knotD, lastKnot, List.getD]
      have hminlt : knotD (c7U : List ℝ) 2 < knotD c7U 3 := by
        norm_num [c7U, knotD, List.getD]
      have hmaxlt : knotD (c7U : List ℝ) 6 < knotD c7U 7 := by
        norm_num [c7U, knotD, List.getD]
      have hWpos : ∀ i, i < 7 → 0 < (c7W i : ℝ) := by
        intro i hi
        interval_cases i <;> norm_num [c7W, List.getD]
      have hx := (valueCoord_endpoints c7U 2 7 c7W (c7Px t) hlen (by norm_num) hchain
        hclampL hclampR hminlt hmaxlt hWpos).2
      have hy := (valueCoord_endpoints c7U 2 7 c7W c7Py hlen (by norm_num) hchain
        hclampL hclampR hminlt hmaxlt hWpos).2
      have hlast : lastKnot (c7U : List ℝ) = 1 := by
        norm_num [c7U, lastKnot, knotD, List.getD]
      rw [hlast] at hx hy
      rw [hx, hy]
      norm_num [c7Px, c7Py, List.getD]
      linear_combination ht / 4

/-- Witness for C5 at s = sqrt 2, t = sqrt 3 (so the arc weights are
sqrt(2)/2 and the 7-point abscissa is cos(pi/6) = sqrt(3)/2), evaluated at
the concrete parameter u = 1/3. -/
theorem nurbs_circle_unit_norm_witness :
    (0:ℝ) ≤ Real.sqrt 2 ∧ Real.sqrt 2 ^ 2 = 2 ∧ Real.sqrt 3 ^ 2 = 3 ∧
    Real.cos (Real.pi / 6) = Real.sqrt 3 / 2 ∧
    (0:ℝ) ≤ 1/3 ∧ (1/3:ℝ) ≤ 1 ∧
    valueCoord c9U 2 (c9W (Real.sqrt 2)) c9Px 9 (1/3) ^ 2 +
      valueCoord c9U 2 (c9W (Real.sqrt 2)) c9Py 9 (1/3) ^ 2 = 1 ∧
    valueCoord c7U 2 c7W (c7Px (Real.sqrt 3)) 7 (1/3) ^ 2 +
      valueCoord c7U 2 c7W c7Py 7 (1/3) ^ 2 = 1 := by
  have h2 : Real.sqrt 2 ^ 2 = 2 := Real.sq_sqrt (by norm_num)
  have h3 : Real.sqrt 3 ^ 2 = 3 := Real.sq_sqrt (by norm_num)
  have h := nurbs_circle_unit_norm (Real.sqrt 2) (Real.sqrt 3) (Real.sqrt_nonneg 2) h2 h3
  exact ⟨Real.sqrt_nonneg 2, h2, h3, Real.cos_pi_div_six, by norm_num, by norm_num,
    h.1 (1/3) (by norm_num) (by norm_num), h.2 (1/3) (by norm_num) (by norm_num)⟩

end Nurbs
